import Mathlib

/-!
Verification of the line-prefixing writer library (package indent).

Bytes are modelled as natural numbers and byte strings as lists of naturals;
the line terminator is the byte 10.  Go errors are an abstract type wrapped in
Option (none = nil).  Destination sinks are modelled by a state type and a
write function returning (accepted count, error, new state), mirroring the
io.Writer contract.  All definitions in the first part of the file are
translated from src/indent.go; reference definitions used only to state
properties are marked as such.
-/

namespace Indent

/-- Embedding of bytes.SplitAfter(buf, newline) as used at src/indent.go line
198: splits the buffer after every newline byte.  The result is always
non-empty, and ends with an empty piece exactly when the buffer ends in a
newline. -/
def splitAfterNl : List Nat → List (List Nat)
  | [] => [[]]
  | b :: rest =>
    if b = 10 then [b] :: splitAfterNl rest
    else
      match splitAfterNl rest with
      | [] => [[b]]
      | l :: ls => (b :: l) :: ls

/-- The lines of a buffer as computed at src/indent.go lines 198-206: split
after newlines and drop the trailing empty piece left by a final newline so
that no spurious prefix is appended after it. -/
def procLines (buf : List Nat) : List (List Nat) :=
  let lines0 := splitAfterNl buf
  if lines0.getLast? = some [] then lines0.dropLast else lines0

/-- Embedding of the indent function, src/indent.go lines 194-223: returns
buf with each line prefixed by pre; sol indicates whether the stream is at
the start of a line, and when it is false the first line is not prefixed
(the Go code copies lines[0] verbatim in that case). -/
def indent (buf pre : List Nat) (sol : Bool) : List Nat :=
  if buf.length = 0 ∨ pre.length = 0 then buf
  else
    let lines := procLines buf
    if sol then (lines.map fun l => pre ++ l).flatten
    else lines.headD [] ++ ((lines.drop 1).map fun l => pre ++ l).flatten

/-- Embedding of String, src/indent.go lines 74-79 (strings are byte lists;
the zero-copy s2b/b2s conversions have no observable behaviour of their
own). -/
def String (pre input : List Nat) : List Nat :=
  if input.length = 0 ∨ pre.length = 0 then input
  else indent input pre true

/-- Embedding of Bytes, src/indent.go lines 82-87. -/
def Bytes (pre input : List Nat) : List Nat :=
  if input.length = 0 ∨ pre.length = 0 then input
  else indent input pre true

/-- The mutable state of an indenter whose back-link p is nil: its prefix and
start-of-line flag (fields prefix and sol of the indenter struct,
src/indent.go lines 89-94).  The shared destination and the back-link are
modelled separately. -/
structure WState where
  pre : List Nat
  sol : Bool
deriving DecidableEq, Repr

/-- Whether the last byte of a list is the newline byte; models the test
nbuf[r-1] == newline at full acceptance, src/indent.go line 143. -/
def lastIsNl (l : List Nat) : Bool := l.getLast? == some 10

/-- Index of the last newline byte of a list, or -1 when there is none;
embedding of bytes.LastIndex(nbuf, newline), src/indent.go line 178. -/
def lastIndexNl : List Nat → Int
  | [] => -1
  | b :: rest =>
    if lastIndexNl rest ≥ 0 then lastIndexNl rest + 1
    else if b = 10 then 0 else -1

/-- Indexing buf[i] with a Go int index.  Go panics when the index is out of
range; the states reachable in this development keep every use in range, and
out-of-range reads default to 0. -/
def byteAt (l : List Nat) (i : Int) : Nat :=
  if i < 0 then 0 else (l[i.toNat]?).getD 0

/-- The partial-acceptance accounting of Write, src/indent.go lines 169-187,
applied to the accepted bytes after the leading prefix (when sol held) has
been stripped: nl is the newline count (line 169), ln the index of the last
newline (line 178), and x the length of the fragment after it (line 184);
the result is the number of input bytes reported consumed. -/
def codeConsumed (preLen : Nat) (nbuf1 : List Nat) : Int :=
  let nl := nbuf1.count 10
  if nl = 0 then (nbuf1.length : Int)
  else
    let ln := lastIndexNl nbuf1
    let r2 : Int := ln - ((nl : Int) - 1) * (preLen : Int) + 1
    let x : Int := (nbuf1.length : Int) - ln - 1
    if x > (preLen : Int) then r2 + x - (preLen : Int) else r2

/-- Embedding of the body of (*indenter).Write, src/indent.go lines 137-190,
for an indenter whose back-link p is nil (back-link resolution, lines
129-135, is modelled in Sys.write below).  The destination sink is a state
type sigma with a write function dw from sink state and offered bytes to
(accepted count, error, new sink state).  Returns (consumed input bytes,
error, updated writer state, updated sink state). -/
def writeP {σ ε : Type} (dw : σ → List Nat → Nat × Option ε × σ)
    (st : WState) (ds : σ) (buf : List Nat) : Int × Option ε × WState × σ :=
  if buf.length = 0 then (0, none, st, ds)
  else
    let nbuf := indent buf st.pre st.sol
    let out := dw ds nbuf
    let r := out.1
    let err := out.2.1
    let ds1 := out.2.2
    if r = nbuf.length then ((buf.length : Int), err, ⟨st.pre, lastIsNl nbuf⟩, ds1)
    else if r = 0 then (0, err, st, ds1)
    else if st.sol ∧ r ≤ st.pre.length then (0, err, ⟨st.pre, true⟩, ds1)
    else
      let nbuf1 := if st.sol then (nbuf.take r).drop st.pre.length else nbuf.take r
      let c := codeConsumed st.pre.length nbuf1
      (c, err, ⟨st.pre, byteAt buf (c - 1) == 10⟩, ds1)

/-- A destination that accepts everything (bytes.Buffer in the tests): its
state is the accumulated contents. -/
def fullWrite : List Nat → List Nat → Nat × Option Unit × List Nat :=
  fun ds l => (l.length, none, ds ++ l)

/-- A destination that accepts at most n bytes per call and reports an error
on a short write: the artificially limited sink of the round-trip claim. -/
def capWrite (n : Nat) : List Nat → List Nat → Nat × Option Unit × List Nat :=
  fun ds l => (min n l.length, if l.length ≤ n then none else some (), ds ++ l.take n)

/-- A destination driven by a script of per-call caps: the state is the
remaining script paired with the accumulated contents; once the script is
exhausted everything is accepted. -/
def scriptWrite : (List Nat × List Nat) → List Nat → Nat × Option Unit × (List Nat × List Nat) :=
  fun ds l =>
    match ds.1 with
    | [] => (l.length, none, ([], ds.2 ++ l))
    | n :: rest => (min n l.length, if l.length ≤ n then none else some (), (rest, ds.2 ++ l.take n))

/-- The indenter struct viewed as a heap node (src/indent.go lines 89-94):
prefix, start-of-line flag and the back-link p to the node that most
recently wrapped this one (a heap index standing for the Go pointer).  The
destination field w is the one shared external sink and is kept in Sys. -/
structure INode where
  pre : List Nat
  sol : Bool
  p : Option Nat
deriving DecidableEq, Repr

/-- A system of indenter nodes sharing one external destination that accepts
everything: the heap of nodes (indices stand for pointers) and the
destination contents. -/
structure Sys where
  heap : List INode
  out : List Nat
deriving DecidableEq, Repr

/-- Walks the back-link chain to the deepest wrapper (the loop for p.p != nil
at src/indent.go lines 130-132) and returns that wrapper's sol flag.  The
fuel bounds the walk; in every heap built by New each link points to a newer
node, so a fuel of the heap size always suffices. -/
def deepSol (heap : List INode) : Nat → Nat → Option Bool
  | 0, _ => none
  | fuel + 1, k =>
    match heap[k]? with
    | none => none
    | some nd =>
      match nd.p with
      | none => some nd.sol
      | some k2 => deepSol heap fuel k2

/-- Embedding of New, src/indent.go lines 105-124, over the node heap.  The
handle none is the bare destination; some i is node i.  An empty prefix
returns the destination unchanged.  Wrapping an existing node i builds a
sibling node that keeps the same destination (skipping i), concatenates the
prefixes, copies sol, and records the new node in i's back-link p. -/
def New (s : Sys) (h : Option Nat) (pre : List Nat) : Sys × Option Nat :=
  if pre.length = 0 then (s, h)
  else
    match h with
    | none => ({ s with heap := s.heap ++ [⟨pre, true, none⟩] }, some s.heap.length)
    | some i =>
      match s.heap[i]? with
      | none => (s, h)
      | some nd =>
        ({ s with
            heap := s.heap.set i ⟨nd.pre, nd.sol, some s.heap.length⟩
              ++ [⟨nd.pre ++ pre, nd.sol, none⟩] },
          some s.heap.length)

/-- Embedding of (*indenter).Write including back-link resolution,
src/indent.go lines 126-190, over the shared accept-everything destination:
first adopt the deepest wrapper's sol and clear p (lines 129-135), then run
the write body (modelled by writeP).  Writing through the handle none writes
to the bare destination directly. -/
def write (s : Sys) (h : Option Nat) (buf : List Nat) : (Int × Option Unit) × Sys :=
  match h with
  | none => ((buf.length, none), { s with out := s.out ++ buf })
  | some i =>
    match s.heap[i]? with
    | none => ((0, none), s)
    | some nd =>
      let sol1 :=
        match nd.p with
        | some k => (deepSol s.heap s.heap.length k).getD nd.sol
        | none => nd.sol
      let res := writeP fullWrite ⟨nd.pre, sol1⟩ s.out buf
      ((res.1, res.2.1), { heap := s.heap.set i ⟨nd.pre, res.2.2.1.sol, none⟩, out := res.2.2.2 })

/-- Modelled from the spec: the Unwrap operation of the repository is not
part of src/ (only its test TestUnwrap is), so the chain of nested writer
handles is modelled from spec section 4.5: a writer is either the innermost
non-wrapper destination or a Prefixing Writer layered on another writer; the
Nat ids distinguish individual handles. -/
inductive Chain where
  | base : Nat → Chain
  | wrap : Nat → Chain → Chain
deriving DecidableEq, Repr

/-- Modelled from the spec (section 4.5): Unwrap peels back depth levels of
nesting; depth 0 returns the writer itself unchanged, and peeling past the
innermost level stops at the non-wrapper destination. -/
def Unwrap : Chain → Nat → Chain
  | c, 0 => c
  | Chain.base n, _ + 1 => Chain.base n
  | Chain.wrap _ c, d + 1 => Unwrap c d

/-- Modelled from the spec: the nesting depth of a chain of writers. -/
def depthC : Chain → Nat
  | Chain.base _ => 0
  | Chain.wrap _ c => depthC c + 1

/-- Modelled from the spec: the innermost non-wrapper destination of a
chain. -/
def rootOf : Chain → Chain
  | Chain.base n => Chain.base n
  | Chain.wrap _ c => rootOf c

/-- Reference definition (used only to state and relate properties): the
byte-by-byte form of the transform.  The prefix is emitted whenever a byte
is about to be written at the start of a line, and the flag becomes true
after each newline byte.  Proved below to agree with the source embedding
indent. -/
def indentR (pre : List Nat) : Bool → List Nat → List Nat
  | _, [] => []
  | sol, b :: rest => (if sol then pre else []) ++ b :: indentR pre (decide (b = 10)) rest

/-- Reference definition: the start-of-line flag after writing chunk a from
flag sol - unchanged for an empty chunk, otherwise whether the chunk ends in
a newline. -/
def nextSol (sol : Bool) (a : List Nat) : Bool :=
  match a.getLast? with
  | none => sol
  | some b => decide (b = 10)

/-- Reference definition: tags each byte of the expanded stream, true for an
input byte and false for an inserted prefix byte; runs parallel to
indentR. -/
def tagged (pre : List Nat) : Bool → List Nat → List Bool
  | _, [] => []
  | sol, b :: rest =>
    (if sol then List.replicate pre.length false else [])
      ++ true :: tagged pre (decide (b = 10)) rest

/-- Writes a list of chunks sequentially through one writer state over the
accept-everything destination. -/
def writeAll : WState → List Nat → List (List Nat) → WState × List Nat
  | st, ds, [] => (st, ds)
  | st, ds, c :: cs =>
    let r := writeP fullWrite st ds c
    writeAll r.2.2.1 r.2.2.2 cs

/-- The retry loop of the round-trip claim: writes the unconsumed remainder
through a destination capped at n bytes per call until everything is
consumed or the fuel runs out.  The Bool records that the loop finished
within the fuel and that every call's accepted span ended exactly at the
boundary of the expansion of the input it consumed (never inside an inserted
prefix). -/
def runLoop (n : Nat) : Nat → WState → List Nat → List Nat → Bool × WState × List Nat × List Nat
  | 0, st, ds, rem => (rem.length == 0, st, ds, rem)
  | fuel + 1, st, ds, rem =>
    if rem.length = 0 then (true, st, ds, rem)
    else
      let res := writeP (capWrite n) st ds rem
      let c := res.1.toNat
      let good :=
        min n (indent rem st.pre st.sol).length == (indentR st.pre st.sol (rem.take c)).length
      let rest := runLoop n fuel res.2.2.1 res.2.2.2 (rem.drop c)
      (good && rest.1, rest.2)

/-! ### Basic facts about the reference transform -/

theorem indentR_cons (pre : List Nat) (sol : Bool) (b : Nat) (l : List Nat) :
    indentR pre sol (b :: l) = (if sol then pre else []) ++ b :: indentR pre (decide (b = 10)) l :=
  rfl

theorem tagged_cons (pre : List Nat) (sol : Bool) (b : Nat) (l : List Nat) :
    tagged pre sol (b :: l)
      = (if sol then List.replicate pre.length false else [])
          ++ true :: tagged pre (decide (b = 10)) l :=
  rfl

theorem indentR_pre_nil (sol : Bool) (l : List Nat) : indentR [] sol l = l := by
  induction l generalizing sol with
  | nil => rfl
  | cons b t ih => cases sol <;> simp [indentR_cons, ih]

theorem indentR_true (pre : List Nat) (l : List Nat) (h : l ≠ []) :
    indentR pre true l = pre ++ indentR pre false l := by
  cases l with
  | nil => simp at h
  | cons b t => simp [indentR_cons]

theorem indentR_ne_nil (pre : List Nat) (sol : Bool) (l : List Nat) (h : l ≠ []) :
    indentR pre sol l ≠ [] := by
  cases l with
  | nil => simp at h
  | cons b t => cases sol <;> simp [indentR_cons]

theorem indentR_getLast (pre : List Nat) (sol : Bool) (l : List Nat) (h : l ≠ []) :
    (indentR pre sol l).getLast? = l.getLast? := by
  induction l generalizing sol with
  | nil => simp at h
  | cons b t ih =>
    cases ht : t with
    | nil =>
      have e : indentR pre sol [b] = (if sol then pre else []) ++ [b] := by
        cases sol <;> simp [indentR_cons, indentR]
      rw [e, List.getLast?_append_of_ne_nil _ (by simp)]
    | cons c u =>
      subst ht
      have hne : indentR pre (decide (b = 10)) (c :: u) ≠ [] :=
        indentR_ne_nil _ _ _ (by simp)
      rw [indentR_cons, List.getLast?_append_of_ne_nil _ (by simp),
        show b :: indentR pre (decide (b = 10)) (c :: u)
            = [b] ++ indentR pre (decide (b = 10)) (c :: u) from rfl,
        List.getLast?_append_of_ne_nil _ hne, ih _ (by simp), List.getLast?_cons_cons]

theorem nextSol_nil (sol : Bool) : nextSol sol [] = sol := rfl

theorem nextSol_cons (sol : Bool) (b : Nat) (l : List Nat) :
    nextSol sol (b :: l) = nextSol (decide (b = 10)) l := by
  cases hl : l with
  | nil => rfl
  | cons c t =>
    have hx : (c :: t).getLast? = some ((c :: t).getLast (by simp)) :=
      List.getLast?_eq_getLast _ (by simp)
    simp only [nextSol, List.getLast?_cons_cons, hx]

theorem nextSol_append (sol : Bool) (a b : List Nat) :
    nextSol sol (a ++ b) = nextSol (nextSol sol a) b := by
  cases hb : b with
  | nil => simp [nextSol_nil]
  | cons c t =>
    have h1 : (a ++ c :: t).getLast? = (c :: t).getLast? :=
      List.getLast?_append_of_ne_nil _ (by simp)
    have hx : (c :: t).getLast? = some ((c :: t).getLast (by simp)) :=
      List.getLast?_eq_getLast _ (by simp)
    simp only [nextSol, h1, hx]

theorem indentR_append (pre : List Nat) (sol : Bool) (a b : List Nat) :
    indentR pre sol (a ++ b) = indentR pre sol a ++ indentR pre (nextSol sol a) b := by
  induction a generalizing sol with
  | nil => simp [indentR, nextSol_nil]
  | cons x t ih =>
    rw [List.cons_append, indentR_cons, ih, nextSol_cons, indentR_cons]
    simp [List.append_assoc]

theorem indentR_false_nlfree (pre : List Nat) (l : List Nat) : 10 ∉ l → indentR pre false l = l := by
  induction l with
  | nil => intro _; rfl
  | cons b t ih =>
    intro h
    have hb : ¬(b = 10) := fun e => h (by simp [e])
    have ht : 10 ∉ t := fun m => h (List.mem_cons_of_mem _ m)
    simp [indentR_cons, hb, ih ht]

theorem indentR_nlfree_sol (pre : List Nat) (sol : Bool) (a : List Nat)
    (h10 : 10 ∉ a) (h : a ≠ []) :
    indentR pre sol a = (if sol then pre else []) ++ a := by
  cases a with
  | nil => simp at h
  | cons b t =>
    have hb : ¬(b = 10) := fun e => h10 (by simp [e])
    have ht : 10 ∉ t := fun m => h10 (List.mem_cons_of_mem _ m)
    rw [indentR_cons]
    simp [hb, indentR_false_nlfree pre t ht]

theorem indentR_decomp (pre : List Nat) (sol : Bool) (a b : List Nat) :
    10 ∉ a →
      indentR pre sol (a ++ 10 :: b)
        = (if sol then pre else []) ++ a ++ 10 :: indentR pre true b := by
  induction a generalizing sol with
  | nil => intro _; simp [indentR_cons]
  | cons x t ih =>
    intro h
    have hx : ¬(x = 10) := fun e => h (by simp [e])
    have ht : 10 ∉ t := fun m => h (List.mem_cons_of_mem _ m)
    have hdx : decide (x = 10) = false := by simp [hx]
    rw [List.cons_append, indentR_cons, hdx, ih false ht]
    simp [List.append_assoc]

/-! ### The source transform agrees with the reference transform -/

theorem splitAfterNl_ne_nil (l : List Nat) : splitAfterNl l ≠ [] := by
  cases l with
  | nil => simp [splitAfterNl]
  | cons b t =>
    simp only [splitAfterNl]
    split
    · simp
    · split <;> simp

theorem splitAfterNl_head (t : List Nat) (h : t ≠ []) :
    ∃ b h2 t2, splitAfterNl t = (b :: h2) :: t2 := by
  cases t with
  | nil => simp at h
  | cons b r =>
    by_cases hb : b = 10
    · subst hb
      exact ⟨10, [], splitAfterNl r, by simp [splitAfterNl]⟩
    · obtain ⟨h2, t2, hs⟩ : ∃ h2 t2, splitAfterNl r = h2 :: t2 := by
        cases hs : splitAfterNl r with
        | nil => exact absurd hs (splitAfterNl_ne_nil r)
        | cons x y => exact ⟨x, y, rfl⟩
      exact ⟨b, h2, t2, by simp [splitAfterNl, hb, hs]⟩

theorem procLines_nil : procLines [] = [] := rfl

theorem procLines_ne_nil (t : List Nat) (h : t ≠ []) : procLines t ≠ [] := by
  obtain ⟨b, h2, t2, hs⟩ := splitAfterNl_head t h
  simp only [procLines, hs]
  cases t2 with
  | nil => simp
  | cons u v => split <;> simp

theorem procLines_nlcons (l : List Nat) : procLines (10 :: l) = [10] :: procLines l := by
  obtain ⟨h, t, hs⟩ : ∃ h t, splitAfterNl l = h :: t := by
    cases hs : splitAfterNl l with
    | nil => exact absurd hs (splitAfterNl_ne_nil l)
    | cons x y => exact ⟨x, y, rfl⟩
  have e : splitAfterNl (10 :: l) = [10] :: h :: t := by simp [splitAfterNl, hs]
  simp only [procLines, e, hs, List.getLast?_cons_cons]
  by_cases hc : (h :: t).getLast? = some []
  · rw [if_pos hc, if_pos hc]
    cases t with
    | nil =>
      simp only [List.getLast?_singleton, Option.some.injEq] at hc
      simp [hc]
    | cons u v => simp
  · rw [if_neg hc, if_neg hc]

theorem procLines_cons (b : Nat) (hb : b ≠ 10) (l : List Nat) :
    procLines (b :: l)
      = match procLines l with
        | [] => [[b]]
        | h :: t => (b :: h) :: t := by
  obtain ⟨h, t, hs⟩ : ∃ h t, splitAfterNl l = h :: t := by
    cases hs : splitAfterNl l with
    | nil => exact absurd hs (splitAfterNl_ne_nil l)
    | cons x y => exact ⟨x, y, rfl⟩
  have e : splitAfterNl (b :: l) = (b :: h) :: t := by simp [splitAfterNl, hb, hs]
  cases t with
  | nil =>
    by_cases hh : h = []
    · subst hh
      simp [procLines, e, hs]
    · simp [procLines, e, hs, hh]
  | cons u v =>
    simp only [procLines, e, hs, List.getLast?_cons_cons]
    by_cases hc : (u :: v).getLast? = some []
    · rw [if_pos hc, if_pos hc]
      simp
    · rw [if_neg hc, if_neg hc]

theorem procLines_flatten (pre : List Nat) (l : List Nat) :
    ((procLines l).map fun x => pre ++ x).flatten = indentR pre true l
      ∧ (l ≠ [] →
          (procLines l).headD [] ++ (((procLines l).drop 1).map fun x => pre ++ x).flatten
            = indentR pre false l) := by
  induction l with
  | nil =>
    refine ⟨by simp [procLines_nil, indentR], fun h => absurd rfl h⟩
  | cons b t ih =>
    by_cases hb : b = 10
    · subst hb
      rw [procLines_nlcons]
      constructor
      · simp only [List.map_cons, List.flatten_cons]
        rw [ih.1, indentR_cons]
        simp
      · intro _
        simp only [List.headD_cons, List.drop_succ_cons, List.drop_zero]
        rw [ih.1, indentR_cons]
        simp
    · have hd : decide (b = 10) = false := by simp [hb]
      by_cases ht : t = []
      · subst ht
        have hm : procLines [b] = [[b]] := by rw [procLines_cons b hb, procLines_nil]
        refine ⟨?_, fun _ => ?_⟩
        · rw [hm, indentR_cons, hd]
          simp [indentR]
        · rw [hm, indentR_cons, hd]
          simp [indentR]
      · obtain ⟨h2, t2, hp⟩ : ∃ h2 t2, procLines t = h2 :: t2 := by
          cases hq : procLines t with
          | nil => exact absurd hq (procLines_ne_nil t ht)
          | cons x y => exact ⟨x, y, rfl⟩
        have hm : procLines (b :: t) = (b :: h2) :: t2 := by
          rw [procLines_cons b hb, hp]
        have iht := ih.2 ht
        rw [hp] at iht
        simp only [List.headD_cons, List.drop_succ_cons, List.drop_zero] at iht
        refine ⟨?_, fun _ => ?_⟩
        · rw [hm, indentR_cons, hd]
          simp only [List.map_cons, List.flatten_cons]
          rw [← iht]
          simp [List.append_assoc]
        · rw [hm, indentR_cons, hd]
          simp only [List.headD_cons, List.drop_succ_cons, List.drop_zero]
          rw [← iht]
          simp [List.append_assoc]

theorem indent_eq_indentR (buf pre : List Nat) (sol : Bool) :
    indent buf pre sol = indentR pre sol buf := by
  by_cases hb : buf.length = 0
  · have e : buf = [] := List.length_eq_zero.mp hb
    subst e
    simp [indent, indentR]
  · by_cases hp : pre.length = 0
    · have e : pre = [] := List.length_eq_zero.mp hp
      subst e
      simp [indent, hb, indentR_pre_nil]
    · have hbne : buf ≠ [] := fun e => hb (by simp [e])
      have hcond : ¬(buf.length = 0 ∨ pre.length = 0) := by tauto
      cases sol
      · simp only [indent, if_neg hcond, Bool.false_eq_true, if_false]
        exact (procLines_flatten pre buf).2 hbne
      · simp only [indent, if_neg hcond, if_true]
        exact (procLines_flatten pre buf).1

theorem indent_ne_nil (buf pre : List Nat) (sol : Bool) (h : buf ≠ []) :
    indent buf pre sol ≠ [] := by
  rw [indent_eq_indentR]
  exact indentR_ne_nil pre sol buf h

/-! ### Tagging facts -/

theorem count_true_falses (n : Nat) : ((List.replicate n false).count true) = 0 := by
  rw [List.count_eq_zero]
  simp

theorem tagged_count (pre : List Nat) (sol : Bool) (l : List Nat) :
    (tagged pre sol l).count true = l.length := by
  induction l generalizing sol with
  | nil => rfl
  | cons b t ih =>
    rw [tagged_cons, List.count_append, List.count_cons]
    cases sol <;> simp [count_true_falses, ih]

theorem tagged_true (pre : List Nat) (l : List Nat) (h : l ≠ []) :
    tagged pre true l = List.replicate pre.length false ++ tagged pre false l := by
  cases l with
  | nil => simp at h
  | cons b t => simp [tagged_cons]

/-! ### Facts about the partial-write arithmetic -/

theorem lastIndexNl_neg (l : List Nat) : 10 ∉ l → lastIndexNl l = -1 := by
  induction l with
  | nil => intro _; rfl
  | cons b t ih =>
    intro h
    have hb : ¬(b = 10) := fun e => h (by simp [e])
    have ht : 10 ∉ t := fun m => h (List.mem_cons_of_mem _ m)
    simp only [lastIndexNl, ih ht]
    norm_num [hb]

theorem lastIndexNl_nonneg (l : List Nat) : 10 ∈ l → 0 ≤ lastIndexNl l := by
  induction l with
  | nil => intro h; simp at h
  | cons b t ih =>
    intro h
    by_cases hm : 10 ∈ t
    · have h0 := ih hm
      simp only [lastIndexNl]
      rw [if_pos (show lastIndexNl t ≥ 0 from h0)]
      omega
    · have hb : b = 10 := by
        cases List.mem_cons.mp h with
        | inl h1 => exact h1.symm
        | inr h2 => exact absurd h2 hm
      simp only [lastIndexNl]
      split
      · omega
      · simp [hb]

theorem lastIndexNl_cons_pos (b : Nat) (t : List Nat) (h : 10 ∈ t) :
    lastIndexNl (b :: t) = lastIndexNl t + 1 := by
  have h0 : 0 ≤ lastIndexNl t := lastIndexNl_nonneg t h
  simp only [lastIndexNl]
  rw [if_pos (show lastIndexNl t ≥ 0 from h0)]

theorem lastIndexNl_append (a l : List Nat) (h : 10 ∈ l) :
    lastIndexNl (a ++ l) = (a.length : Int) + lastIndexNl l := by
  induction a with
  | nil => simp
  | cons b t ih =>
    have hm : 10 ∈ t ++ l := List.mem_append.mpr (Or.inr h)
    rw [List.cons_append, lastIndexNl_cons_pos _ _ hm, ih]
    simp only [List.length_cons]
    push_cast
    omega

theorem lastIndexNl_lt (l : List Nat) : lastIndexNl l < (l.length : Int) := by
  induction l with
  | nil => simp [lastIndexNl]
  | cons b t ih =>
    have hlen : ((b :: t).length : Int) = (t.length : Int) + 1 := by simp
    rw [hlen]
    simp only [lastIndexNl]
    split
    · omega
    · split <;> omega

theorem codeConsumed_nil (p : Nat) : codeConsumed p [] = 0 := rfl

theorem codeConsumed_nlfree (p : Nat) (l : List Nat) (h : 10 ∉ l) :
    codeConsumed p l = (l.length : Int) := by
  have hc : l.count 10 = 0 := List.count_eq_zero.mpr h
  simp [codeConsumed, hc]

theorem codeConsumed_cons_ne (p : Nat) (b : Nat) (l : List Nat) (hb : b ≠ 10) :
    codeConsumed p (b :: l) = 1 + codeConsumed p l := by
  by_cases hm : 10 ∈ l
  · have hpos : ¬(l.count 10 = 0) := by
      have h1 : 0 < l.count 10 := List.count_pos_iff.mpr hm
      omega
    have hcnt : (b :: l).count 10 = l.count 10 := by
      rw [List.count_cons]
      simp [hb]
    simp only [codeConsumed, hcnt, List.length_cons, lastIndexNl_cons_pos b l hm,
      if_neg hpos]
    generalize ((l.count 10 : Int) - 1) * (p : Int) = q
    push_cast
    split_ifs <;> omega
  · have hnb : 10 ∉ b :: l := by
      intro hc
      cases List.mem_cons.mp hc with
      | inl h1 => exact hb h1.symm
      | inr h2 => exact hm h2
    rw [codeConsumed_nlfree p _ hnb, codeConsumed_nlfree p l hm]
    simp only [List.length_cons]
    push_cast
    omega

theorem codeConsumed_nl_short (p : Nat) (q : List Nat) (hq : 10 ∉ q) (hlen : q.length ≤ p) :
    codeConsumed p (10 :: q) = 1 := by
  have hc : (10 :: q).count 10 = 1 := by
    rw [List.count_cons, List.count_eq_zero.mpr hq]
    simp
  have hneg : ¬(lastIndexNl q ≥ 0) := by
    rw [lastIndexNl_neg q hq]; omega
  have hln : lastIndexNl (10 :: q) = 0 := by
    simp only [lastIndexNl, if_neg hneg]
    norm_num
  simp only [codeConsumed, hc, hln, List.length_cons]
  rw [if_neg (by omega), if_neg (by push_cast; omega)]
  push_cast
  ring_nf

theorem codeConsumed_nl_pre (pre : List Nat) (l : List Nat) (hnf : 10 ∉ pre) :
    codeConsumed pre.length (10 :: (pre ++ l)) = 1 + codeConsumed pre.length l := by
  by_cases hm : 10 ∈ l
  · have hcl : 0 < l.count 10 := List.count_pos_iff.mpr hm
    have hcp : pre.count 10 = 0 := List.count_eq_zero.mpr hnf
    have hc : (10 :: (pre ++ l)).count 10 = 1 + l.count 10 := by
      rw [List.count_cons, List.count_append, hcp]
      simp [Nat.add_comm]
    have hmal : 10 ∈ pre ++ l := List.mem_append.mpr (Or.inr hm)
    have hln : lastIndexNl (10 :: (pre ++ l)) = (pre.length : Int) + lastIndexNl l + 1 := by
      rw [lastIndexNl_cons_pos _ _ hmal, lastIndexNl_append pre l hm]
    have hl0 : 0 ≤ lastIndexNl l := lastIndexNl_nonneg l hm
    have hpos1 : ¬((1 + l.count 10) = 0) := by omega
    have hpos2 : ¬(l.count 10 = 0) := by omega
    simp only [codeConsumed, hc, hln, List.length_cons, List.length_append,
      if_neg hpos1, if_neg hpos2]
    push_cast
    have hsplit : (1 + (l.count 10 : Int) - 1) * (pre.length : Int)
        = ((l.count 10 : Int) - 1) * (pre.length : Int) + (pre.length : Int) := by ring
    rw [hsplit]
    generalize ((l.count 10 : Int) - 1) * (pre.length : Int) = q
    split_ifs <;> omega
  · have hnfl : 10 ∉ pre ++ l := by
      intro hc
      cases List.mem_append.mp hc with
      | inl h1 => exact hnf h1
      | inr h2 => exact hm h2
    have hc : (10 :: (pre ++ l)).count 10 = 1 := by
      rw [List.count_cons, List.count_append,
        List.count_eq_zero.mpr hnf, List.count_eq_zero.mpr hm]
      simp
    have hneg : ¬(lastIndexNl (pre ++ l) ≥ 0) := by
      rw [lastIndexNl_neg _ hnfl]; omega
    have hln : lastIndexNl (10 :: (pre ++ l)) = 0 := by
      simp only [lastIndexNl, if_neg hneg]
      norm_num
    rw [codeConsumed_nlfree pre.length l hm]
    simp only [codeConsumed, hc, hln, List.length_cons, List.length_append,
      if_neg (show ¬((1 : Nat) = 0) by omega)]
    by_cases hl : l.length = 0
    · rw [if_neg (by push_cast; omega)]
      push_cast
      rw [hl]
      ring_nf
    · rw [if_pos (by push_cast; omega)]
      push_cast
      ring_nf

/-- Master characterization of the partial-write accounting, stated for a
writer positioned mid-line (sol = false); the sol = true case reduces to it
by stripping the leading prefix.  For a newline-free prefix and any accepted
count rr in range, the value the code computes equals the number of
input-tagged bytes among the first rr expanded bytes; that count is at least
one and at most the buffer length; and the accepted span is exactly the
expansion of the consumed input followed by a partial copy of the prefix. -/
theorem consumedSpec (pre : List Nat) (hnf : 10 ∉ pre) (buf : List Nat) :
    ∀ rr : Nat, 1 ≤ rr → rr ≤ (indentR pre false buf).length →
      codeConsumed pre.length ((indentR pre false buf).take rr)
          = (((tagged pre false buf).take rr).count true : Int)
      ∧ 1 ≤ ((tagged pre false buf).take rr).count true
      ∧ ((tagged pre false buf).take rr).count true ≤ buf.length
      ∧ (indentR pre false buf).take rr
          = indentR pre false (buf.take (((tagged pre false buf).take rr).count true))
            ++ pre.take
                (rr - (indentR pre false
                  (buf.take (((tagged pre false buf).take rr).count true))).length) := by
  induction buf with
  | nil =>
    intro rr h1 h2
    rw [show indentR pre false ([] : List Nat) = [] from rfl] at h2
    simp at h2
    omega
  | cons hd tl ih =>
    intro rr h1 h2
    obtain ⟨rr1, rfl⟩ : ∃ rr1, rr = rr1 + 1 := ⟨rr - 1, by omega⟩
    by_cases hhd : hd = 10
    · subst hhd
      by_cases htl : tl = []
      · subst htl
        have hF : indentR pre false [10] = [10] := by
          rw [indentR_cons]
          simp [indentR]
        have hT : tagged pre false [10] = [true] := by
          rw [tagged_cons]
          simp [tagged]
        have hrr : rr1 = 0 := by
          rw [hF] at h2
          simp at h2
          omega
        subst hrr
        rw [hF, hT]
        refine ⟨?_, by simp, by simp, ?_⟩
        · rw [show ([10] : List Nat).take (0 + 1) = 10 :: ([] : List Nat) from rfl]
          rw [codeConsumed_nl_short pre.length [] (by simp) (by simp)]
          simp
        · simp [indentR_cons, indentR]
      · have hd10 : decide ((10 : Nat) = 10) = true := by simp
        have hFt : indentR pre false (10 :: tl) = 10 :: (pre ++ indentR pre false tl) := by
          rw [indentR_cons, hd10, indentR_true pre tl htl]
          simp
        have hTt : tagged pre false (10 :: tl)
            = true :: (List.replicate pre.length false ++ tagged pre false tl) := by
          rw [tagged_cons, hd10, tagged_true pre tl htl]
          simp
        have hlen2 : rr1 ≤ pre.length + (indentR pre false tl).length := by
          rw [hFt] at h2
          simp at h2
          omega
        rw [hFt, hTt, List.take_succ_cons, List.take_succ_cons]
        by_cases hshort : rr1 ≤ pre.length
        · -- the cut lands at the newline or inside the inserted prefix
          have e1 : (pre ++ indentR pre false tl).take rr1 = pre.take rr1 := by
            rw [List.take_append_eq_append_take, Nat.sub_eq_zero_of_le hshort]
            simp
          have e2 : (List.replicate pre.length false ++ tagged pre false tl).take rr1
              = List.replicate rr1 false := by
            rw [List.take_append_eq_append_take, Nat.sub_eq_zero_of_le (by simp [hshort]),
              List.take_replicate]
            simp [Nat.min_eq_left hshort]
          rw [e1, e2]
          have hcnt : (true :: List.replicate rr1 false).count true = 0 + 1 := by
            rw [List.count_cons, count_true_falses]
            simp
          rw [hcnt]
          refine ⟨?_, by simp, by simp, ?_⟩
          · rw [codeConsumed_nl_short pre.length (pre.take rr1)
              (fun m => hnf (List.mem_of_mem_take m)) (by simp)]
            simp
          · rw [show (10 :: tl).take (0 + 1) = [10] from by simp,
              show indentR pre false [10] = [10] from by rw [indentR_cons]; simp [indentR]]
            simp
        · -- the cut lands beyond the inserted prefix: recurse into the tail
          have hrr2 : 1 ≤ rr1 - pre.length := by omega
          have hle2 : rr1 - pre.length ≤ (indentR pre false tl).length := by omega
          obtain ⟨ih1, ih2, ih3, ih4⟩ := ih (rr1 - pre.length) hrr2 hle2
          have e1 : (pre ++ indentR pre false tl).take rr1
              = pre ++ (indentR pre false tl).take (rr1 - pre.length) := by
            rw [List.take_append_eq_append_take, List.take_of_length_le (by omega)]
          have e2 : (List.replicate pre.length false ++ tagged pre false tl).take rr1
              = List.replicate pre.length false ++ (tagged pre false tl).take (rr1 - pre.length) := by
            rw [List.take_append_eq_append_take,
              List.take_of_length_le (by simp; omega)]
            simp
          rw [e1, e2]
          have hcnt : (true :: (List.replicate pre.length false
                ++ (tagged pre false tl).take (rr1 - pre.length))).count true
              = ((tagged pre false tl).take (rr1 - pre.length)).count true + 1 := by
            rw [List.count_cons, List.count_append, count_true_falses]
            simp
          rw [hcnt]
          have htake : tl.take (((tagged pre false tl).take (rr1 - pre.length)).count true) ≠ [] := by
            rw [Ne, List.take_eq_nil_iff]
            push_neg
            exact ⟨by omega, htl⟩
          have hEc : indentR pre false
                (10 :: tl.take (((tagged pre false tl).take (rr1 - pre.length)).count true))
              = 10 :: (pre ++ indentR pre false
                  (tl.take (((tagged pre false tl).take (rr1 - pre.length)).count true))) := by
            rw [indentR_cons, hd10, indentR_true pre _ htake]
            simp
          refine ⟨?_, by omega, ?_, ?_⟩
          · rw [codeConsumed_nl_pre pre _ hnf, ih1]
            push_cast
            omega
          · simp
            omega
          · rw [List.take_succ_cons, hEc, ih4]
            simp only [List.length_cons, List.length_append]
            have harith : rr1 + 1 - (pre.length + (indentR pre false
                  (tl.take (((tagged pre false tl).take (rr1 - pre.length)).count true))).length + 1)
                = rr1 - pre.length - (indentR pre false
                  (tl.take (((tagged pre false tl).take (rr1 - pre.length)).count true))).length := by
              omega
            rw [harith]
            simp [List.append_assoc]
    · -- first byte is an ordinary input byte
      have hdd : decide (hd = 10) = false := by simp [hhd]
      have hF : indentR pre false (hd :: tl) = hd :: indentR pre false tl := by
        rw [indentR_cons, hdd]
        simp
      have hT : tagged pre false (hd :: tl) = true :: tagged pre false tl := by
        rw [tagged_cons, hdd]
        simp
      have hlen2 : rr1 ≤ (indentR pre false tl).length := by
        rw [hF] at h2
        simp at h2
        omega
      rw [hF, hT, List.take_succ_cons, List.take_succ_cons]
      have hcnt : (true :: (tagged pre false tl).take rr1).count true
          = ((tagged pre false tl).take rr1).count true + 1 := by
        rw [List.count_cons]
        simp
      rw [hcnt]
      by_cases hz : rr1 = 0
      · subst hz
        simp only [List.take_zero, List.count_nil]
        refine ⟨?_, by simp, by simp, ?_⟩
        · rw [codeConsumed_nlfree pre.length [hd] (by simp; omega)]
          simp
        · rw [show (hd :: tl).take (0 + 1) = [hd] from by simp,
            show indentR pre false [hd] = [hd] from by rw [indentR_cons, hdd]; simp [indentR]]
          simp
      · have hrr2 : 1 ≤ rr1 := by omega
        obtain ⟨ih1, ih2, ih3, ih4⟩ := ih rr1 hrr2 hlen2
        have hEc : indentR pre false
              (hd :: tl.take (((tagged pre false tl).take rr1).count true))
            = hd :: indentR pre false
                (tl.take (((tagged pre false tl).take rr1).count true)) := by
          rw [indentR_cons, hdd]
          simp
        refine ⟨?_, by omega, by simp; omega, ?_⟩
        · rw [codeConsumed_cons_ne pre.length hd _ hhd, ih1]
          push_cast
          omega
        · rw [List.take_succ_cons, hEc, ih4]
          simp only [List.length_cons]
          have harith : rr1 + 1 - ((indentR pre false
                (tl.take (((tagged pre false tl).take rr1).count true))).length + 1)
              = rr1 - (indentR pre false
                (tl.take (((tagged pre false tl).take rr1).count true))).length := by
            omega
          rw [harith]
          simp

/-! ### Characterizations of the write operation -/

theorem indent_getLast (buf pre : List Nat) (sol : Bool) (h : buf ≠ []) :
    (indent buf pre sol).getLast? = buf.getLast? := by
  rw [indent_eq_indentR]
  exact indentR_getLast pre sol buf h

theorem lastIsNl_eq_nextSol (buf pre : List Nat) (sol : Bool) (h : buf ≠ []) :
    lastIsNl (indent buf pre sol) = nextSol sol buf := by
  rw [lastIsNl, indent_getLast buf pre sol h]
  obtain ⟨x, hx⟩ : ∃ x, buf.getLast? = some x :=
    ⟨buf.getLast h, List.getLast?_eq_getLast _ h⟩
  rw [hx]
  by_cases hx10 : x = 10 <;> simp [nextSol, hx, hx10]

theorem getLast?_take (l : List Nat) : ∀ c : Nat, 1 ≤ c → c ≤ l.length →
    (l.take c).getLast? = l[c - 1]? := by
  induction l with
  | nil =>
    intro c h1 h2
    simp at h2
    omega
  | cons a t ih =>
    intro c h1 h2
    obtain ⟨c1, rfl⟩ : ∃ c1, c = c1 + 1 := ⟨c - 1, by omega⟩
    rw [List.take_succ_cons]
    by_cases hz : c1 = 0
    · subst hz
      simp
    · obtain ⟨c2, rfl⟩ : ∃ c2, c1 = c2 + 1 := ⟨c1 - 1, by omega⟩
      have h2t : c2 + 1 ≤ t.length := by
        simp at h2
        omega
      have hne : t.take (c2 + 1) ≠ [] := by
        rw [Ne, List.take_eq_nil_iff]
        push_neg
        refine ⟨by omega, ?_⟩
        intro e
        rw [e] at h2t
        simp at h2t
      rw [show (a :: t.take (c2 + 1)) = [a] ++ t.take (c2 + 1) from rfl,
        List.getLast?_append_of_ne_nil _ hne, ih (c2 + 1) (by omega) h2t]
      simp

theorem byteAt_take (l : List Nat) (c : Nat) (h1 : 1 ≤ c) (h2 : c ≤ l.length) (s : Bool) :
    (byteAt l ((c : Int) - 1) == 10) = nextSol s (l.take c) := by
  have hnn : ¬(((c : Int) - 1) < 0) := by omega
  have htn : ((c : Int) - 1).toNat = c - 1 := by omega
  have hidx : c - 1 < l.length := by omega
  have hg : (l.take c).getLast? = some l[c - 1] := by
    rw [getLast?_take l c h1 h2, List.getElem?_eq_getElem hidx]
  rw [byteAt, if_neg hnn, htn, List.getElem?_eq_getElem hidx]
  simp only [nextSol, hg, Option.getD_some]
  by_cases h10 : l[c - 1] = 10 <;> simp [h10]

theorem indent_true_split (buf pre : List Nat) (h : buf ≠ []) :
    indent buf pre true = pre ++ indentR pre false buf := by
  rw [indent_eq_indentR, indentR_true pre buf h]

/-- Full acceptance (src/indent.go lines 142-145): the whole input is
reported consumed, the error is passed through, and sol records whether the
buffer ended in a newline. -/
theorem writeP_full {σ ε : Type} (dw : σ → List Nat → Nat × Option ε × σ)
    (st : WState) (ds : σ) (buf : List Nat) (h : buf ≠ [])
    (hr : (dw ds (indent buf st.pre st.sol)).1 = (indent buf st.pre st.sol).length) :
    writeP dw st ds buf
      = ((buf.length : Int), (dw ds (indent buf st.pre st.sol)).2.1,
          ⟨st.pre, nextSol st.sol buf⟩, (dw ds (indent buf st.pre st.sol)).2.2) := by
  have hlen : ¬(buf.length = 0) := by simp [h]
  simp only [writeP, if_neg hlen]
  rw [if_pos hr, lastIsNl_eq_nextSol buf st.pre st.sol h]

/-- Zero acceptance (src/indent.go lines 153-155): nothing is consumed, the
error is passed through, and the writer state is untouched. -/
theorem writeP_zero {σ ε : Type} (dw : σ → List Nat → Nat × Option ε × σ)
    (st : WState) (ds : σ) (buf : List Nat) (h : buf ≠ [])
    (hr : (dw ds (indent buf st.pre st.sol)).1 = 0) :
    writeP dw st ds buf = (0, (dw ds (indent buf st.pre st.sol)).2.1, st,
      (dw ds (indent buf st.pre st.sol)).2.2) := by
  have hlen : ¬(buf.length = 0) := by simp [h]
  have hne : (indent buf st.pre st.sol).length ≠ 0 := by
    simp [indent_ne_nil buf st.pre st.sol h]
  simp only [writeP, if_neg hlen]
  rw [if_neg (by omega), if_pos hr]

/-- On every return path that consults the destination, the error comes back
verbatim and the new sink state is the destination's. -/
theorem writeP_err_ds {σ ε : Type} (dw : σ → List Nat → Nat × Option ε × σ)
    (st : WState) (ds : σ) (buf : List Nat) (h : buf ≠ []) :
    (writeP dw st ds buf).2.1 = (dw ds (indent buf st.pre st.sol)).2.1
      ∧ (writeP dw st ds buf).2.2.2 = (dw ds (indent buf st.pre st.sol)).2.2 := by
  have hlen : ¬(buf.length = 0) := by simp [h]
  simp only [writeP, if_neg hlen]
  split_ifs <;> exact ⟨rfl, rfl⟩

/-- The write operation over the accept-everything destination: everything is
consumed, the expansion is appended, and sol advances with the chunk.  Holds
for every chunk, the empty one included. -/
theorem writeP_fullWrite (st : WState) (ds : List Nat) (buf : List Nat) :
    writeP fullWrite st ds buf
      = ((buf.length : Int), none, ⟨st.pre, nextSol st.sol buf⟩,
          ds ++ indent buf st.pre st.sol) := by
  by_cases h : buf = []
  · subst h
    have h1 : indent [] st.pre st.sol = [] := by simp [indent]
    simp [writeP, h1, nextSol_nil]
  · rw [writeP_full fullWrite st ds buf h (by rfl)]
    rfl

/-- Partial acceptance (src/indent.go lines 151-189), for a prefix free of
newline bytes: the reported count is the number of input-tagged bytes in the
accepted expanded span, sol advances with the consumed input, the error and
sink state come from the destination, and the accepted span is the expansion
of the consumed input followed by part of the prefix. -/
theorem writeP_partial {σ ε : Type} (dw : σ → List Nat → Nat × Option ε × σ)
    (st : WState) (ds : σ) (buf : List Nat) (r : Nat)
    (hnf : 10 ∉ st.pre) (hb : buf ≠ [])
    (hr : (dw ds (indent buf st.pre st.sol)).1 = r)
    (hr1 : 0 < r) (hr2 : r < (indent buf st.pre st.sol).length) :
    writeP dw st ds buf
      = ((((tagged st.pre st.sol buf).take r).count true : Int),
          (dw ds (indent buf st.pre st.sol)).2.1,
          ⟨st.pre, nextSol st.sol (buf.take (((tagged st.pre st.sol buf).take r).count true))⟩,
          (dw ds (indent buf st.pre st.sol)).2.2)
      ∧ (indent buf st.pre st.sol).take r
          = indentR st.pre st.sol
              (buf.take (((tagged st.pre st.sol buf).take r).count true))
            ++ st.pre.take (r - (indentR st.pre st.sol
                (buf.take (((tagged st.pre st.sol buf).take r).count true))).length)
      ∧ ((tagged st.pre st.sol buf).take r).count true ≤ buf.length := by
  obtain ⟨pre, sol⟩ := st
  simp only at hnf hr hr2 ⊢
  have hlen : ¬(buf.length = 0) := by simp [hb]
  cases sol with
  | false =>
    have hbridge : indent buf pre false = indentR pre false buf := indent_eq_indentR buf pre false
    have hle : r ≤ (indentR pre false buf).length := by
      rw [hbridge] at hr2
      omega
    obtain ⟨s1, s2, s3, s4⟩ := consumedSpec pre hnf buf r (by omega) hle
    rw [← hbridge] at s1 s4
    refine ⟨?_, ?_, s3⟩
    · simp only [writeP, if_neg hlen]
      split_ifs with hc1 hc2 hc3 hc4
      · exact absurd hc1 (by omega)
      · exact absurd hc2 (by omega)
      · exact absurd hc3 (by simp)
      · exact absurd hc4 (by simp)
      · rw [hr, s1]
        have hsol := byteAt_take buf (((tagged pre false buf).take r).count true) s2 s3 false
        rw [hsol]
    · exact s4
  | true =>
    have hsplit : indent buf pre true = pre ++ indentR pre false buf :=
      indent_true_split buf pre hb
    have htagsplit : tagged pre true buf
        = List.replicate pre.length false ++ tagged pre false buf :=
      tagged_true pre buf hb
    by_cases hshort : r ≤ pre.length
    · -- the accepted bytes lie inside the regenerated prefix: nothing consumed
      have htke : (tagged pre true buf).take r = List.replicate r false := by
        rw [htagsplit, List.take_append_eq_append_take,
          Nat.sub_eq_zero_of_le (by simp [hshort]), List.take_replicate]
        simp [Nat.min_eq_left hshort]
      have hcnt : ((tagged pre true buf).take r).count true = 0 := by
        rw [htke, count_true_falses]
      refine ⟨?_, ?_, by omega⟩
      · simp only [writeP, if_neg hlen]
        split_ifs with hc1 hc2 hc3
        · exact absurd hc1 (by omega)
        · exact absurd hc2 (by omega)
        · rw [hcnt]
          simp [nextSol_nil]
        · exact absurd (And.intro (by trivial) (by omega)) hc3
      · rw [hcnt]
        have h0 : buf.take 0 = [] := by simp
        rw [h0, show indentR pre true [] = [] from rfl]
        simp only [List.nil_append, List.length_nil, Nat.sub_zero]
        rw [hsplit, List.take_append_eq_append_take,
          Nat.sub_eq_zero_of_le hshort]
        simp
    · -- the accepted bytes reach past the prefix: strip it and use the
      -- mid-line characterization
      have hlenE : (indent buf pre true).length
          = pre.length + (indentR pre false buf).length := by
        rw [hsplit]
        simp
      have hle : r - pre.length ≤ (indentR pre false buf).length := by omega
      obtain ⟨s1, s2, s3, s4⟩ := consumedSpec pre hnf buf (r - pre.length) (by omega) hle
      have hstrip : ((indent buf pre true).take r).drop pre.length
          = (indentR pre false buf).take (r - pre.length) := by
        rw [hsplit, List.take_append_eq_append_take,
          List.take_of_length_le (by omega)]
        rw [List.drop_append_eq_append_drop]
        simp
      have htke : (tagged pre true buf).take r
          = List.replicate pre.length false ++ (tagged pre false buf).take (r - pre.length) := by
        rw [htagsplit, List.take_append_eq_append_take,
          List.take_of_length_le (by simp; omega)]
        simp
      have hcnt : ((tagged pre true buf).take r).count true
          = ((tagged pre false buf).take (r - pre.length)).count true := by
        rw [htke, List.count_append, count_true_falses]
        omega
      have htcne : buf.take (((tagged pre false buf).take (r - pre.length)).count true) ≠ [] := by
        rw [Ne, List.take_eq_nil_iff]
        push_neg
        exact ⟨by omega, hb⟩
      have hEc : indentR pre true
            (buf.take (((tagged pre false buf).take (r - pre.length)).count true))
          = pre ++ indentR pre false
              (buf.take (((tagged pre false buf).take (r - pre.length)).count true)) :=
        indentR_true pre _ htcne
      refine ⟨?_, ?_, by rw [hcnt]; omega⟩
      · simp only [writeP, if_neg hlen]
        split_ifs with hc1 hc2 hc3
        · exact absurd hc1 (by omega)
        · exact absurd hc2 (by omega)
        · exact absurd hc3.2 (by omega)
        · rw [hr, hstrip, s1, hcnt]
          have hsol := byteAt_take buf
            (((tagged pre false buf).take (r - pre.length)).count true) s2 s3 true
          rw [hsol]
      · rw [hcnt, hEc, hsplit, List.take_append_eq_append_take,
          List.take_of_length_le (by omega), s4]
        simp only [List.length_append]
        have harith : r - (pre.length + (indentR pre false
              (buf.take (((tagged pre false buf).take (r - pre.length)).count true))).length)
            = r - pre.length - (indentR pre false
              (buf.take (((tagged pre false buf).take (r - pre.length)).count true))).length := by
          omega
        rw [harith]
        simp [List.append_assoc]

/-! ### Streaming and retry sequences -/

/-- Writing a list of chunks through one writer over the accept-everything
destination appends the expansion of their concatenation and advances sol
accordingly. -/
theorem writeAll_spec (cs : List (List Nat)) : ∀ (st : WState) (ds : List Nat),
    writeAll st ds cs
      = (⟨st.pre, nextSol st.sol cs.flatten⟩, ds ++ indentR st.pre st.sol cs.flatten) := by
  induction cs with
  | nil =>
    intro st ds
    simp [writeAll, nextSol_nil, indentR]
  | cons c cs ih =>
    intro st ds
    simp only [writeAll]
    rw [writeP_fullWrite, ih]
    simp only [List.flatten_cons, nextSol_append, indentR_append, indent_eq_indentR]
    simp [List.append_assoc]

/-- The retry loop: when every call's accepted span ends exactly at the
boundary of the expansion of the input it consumed and the loop finishes
within its fuel, the destination holds exactly the expansion of the whole
remainder, everything is consumed, and sol has advanced over the whole
remainder. -/
theorem runLoop_spec (n : Nat) : ∀ (fuel : Nat) (st : WState) (ds rem : List Nat),
    10 ∉ st.pre →
    (runLoop n fuel st ds rem).1 = true →
    (runLoop n fuel st ds rem).2.2.1 = ds ++ indentR st.pre st.sol rem
      ∧ (runLoop n fuel st ds rem).2.2.2 = []
      ∧ (runLoop n fuel st ds rem).2.1 = ⟨st.pre, nextSol st.sol rem⟩ := by
  intro fuel
  induction fuel with
  | zero =>
    intro st ds rem hnf hg
    simp only [runLoop] at hg ⊢
    have he : rem = [] := by simpa using hg
    subst he
    simp [indentR, nextSol_nil]
  | succ fuel ih =>
    intro st ds rem hnf hg
    by_cases hrem : rem.length = 0
    · have he : rem = [] := List.length_eq_zero.mp hrem
      subst he
      simp only [runLoop, if_pos rfl] at hg ⊢
      simp [indentR, nextSol_nil]
    · have hremne : rem ≠ [] := fun e => hrem (by simp [e])
      have hnble : 1 ≤ (indent rem st.pre st.sol).length := by
        have hne := indent_ne_nil rem st.pre st.sol hremne
        cases hq : indent rem st.pre st.sol with
        | nil => exact absurd hq hne
        | cons a b => simp [hq]
      simp only [runLoop, if_neg hrem] at hg ⊢
      rw [Bool.and_eq_true] at hg
      obtain ⟨hgood, hrest⟩ := hg
      by_cases hfull : (indent rem st.pre st.sol).length ≤ n
      · -- the whole expanded buffer is accepted
        have hr : (capWrite n ds (indent rem st.pre st.sol)).1
            = (indent rem st.pre st.sol).length := by
          simp [capWrite, Nat.min_eq_right hfull]
        rw [writeP_full (capWrite n) st ds rem hremne hr] at hrest ⊢
        have hds : (capWrite n ds (indent rem st.pre st.sol)).2.2
            = ds ++ indent rem st.pre st.sol := by
          simp [capWrite, List.take_of_length_le hfull]
        rw [hds] at hrest ⊢
        have htn : ((rem.length : Int)).toNat = rem.length := by omega
        rw [htn, List.drop_length] at hrest ⊢
        obtain ⟨i1, i2, i3⟩ := ih ⟨st.pre, nextSol st.sol rem⟩
          (ds ++ indent rem st.pre st.sol) [] hnf hrest
        refine ⟨?_, i2, ?_⟩
        · rw [i1]
          simp [indent_eq_indentR, indentR]
        · rw [i3]
          simp [nextSol_nil]
      · by_cases hzero : n = 0
        · -- nothing is ever accepted: the loop spins in place
          subst hzero
          have hr : (capWrite 0 ds (indent rem st.pre st.sol)).1 = 0 := by
            simp [capWrite]
          rw [writeP_zero (capWrite 0) st ds rem hremne hr] at hrest ⊢
          have hds : (capWrite 0 ds (indent rem st.pre st.sol)).2.2 = ds := by
            simp [capWrite]
          rw [hds] at hrest ⊢
          have htn : ((0 : Int)).toNat = 0 := rfl
          rw [htn, List.drop_zero] at hrest ⊢
          exact ih st ds rem hnf hrest
        · -- a genuine partial acceptance of exactly n bytes
          have hr : (capWrite n ds (indent rem st.pre st.sol)).1 = n := by
            simp [capWrite]
            omega
          obtain ⟨e1, e2, e3⟩ := writeP_partial (capWrite n) st ds rem n hnf hremne hr
            (by omega) (by omega)
          rw [e1] at hrest ⊢
          have htn : (((((tagged st.pre st.sol rem).take n).count true) : Int)).toNat
              = ((tagged st.pre st.sol rem).take n).count true := by omega
          rw [htn] at hrest ⊢
          rw [e1] at hgood
          rw [htn] at hgood
          have hgood2 : min n (indent rem st.pre st.sol).length
              = (indentR st.pre st.sol
                  (rem.take (((tagged st.pre st.sol rem).take n).count true))).length := by
            simpa using hgood
          have hmin : min n (indent rem st.pre st.sol).length = n := by omega
          have hboundary : (indent rem st.pre st.sol).take n
              = indentR st.pre st.sol
                  (rem.take (((tagged st.pre st.sol rem).take n).count true)) := by
            rw [e2, Nat.sub_eq_zero_of_le (by omega)]
            simp
          have hds : (capWrite n ds (indent rem st.pre st.sol)).2.2
              = ds ++ indentR st.pre st.sol
                  (rem.take (((tagged st.pre st.sol rem).take n).count true)) := by
            simp only [capWrite]
            rw [hboundary]
          rw [hds] at hrest ⊢
          obtain ⟨i1, i2, i3⟩ := ih
            ⟨st.pre, nextSol st.sol (rem.take (((tagged st.pre st.sol rem).take n).count true))⟩
            (ds ++ indentR st.pre st.sol
              (rem.take (((tagged st.pre st.sol rem).take n).count true)))
            (rem.drop (((tagged st.pre st.sol rem).take n).count true)) hnf hrest
          have hsplitrem : indentR st.pre st.sol rem
              = indentR st.pre st.sol
                  (rem.take (((tagged st.pre st.sol rem).take n).count true))
                ++ indentR st.pre
                    (nextSol st.sol (rem.take (((tagged st.pre st.sol rem).take n).count true)))
                    (rem.drop (((tagged st.pre st.sol rem).take n).count true)) := by
            conv_lhs => rw [← List.take_append_drop
              (((tagged st.pre st.sol rem).take n).count true) rem]
            rw [indentR_append]
          have hsolrem : nextSol st.sol rem
              = nextSol (nextSol st.sol
                  (rem.take (((tagged st.pre st.sol rem).take n).count true)))
                  (rem.drop (((tagged st.pre st.sol rem).take n).count true)) := by
            conv_lhs => rw [← List.take_append_drop
              (((tagged st.pre st.sol rem).take n).count true) rem]
            rw [nextSol_append]
          refine ⟨?_, i2, ?_⟩
          · rw [i1, hsplitrem]
            simp [List.append_assoc]
          · rw [i3, hsolrem]

/-! ### Heap-level write steps and small helpers -/

theorem tagged_count_short (pre buf : List Nat) (r : Nat) (hb : buf ≠ []) (hr : r ≤ pre.length) :
    ((tagged pre true buf).take r).count true = 0 := by
  rw [tagged_true pre buf hb, List.take_append_eq_append_take,
    Nat.sub_eq_zero_of_le (by simp [hr]), List.take_replicate]
  simp [count_true_falses]

theorem indent_true_length (buf pre : List Nat) (h : buf ≠ []) :
    pre.length < (indent buf pre true).length := by
  rw [indent_true_split buf pre h]
  have hne := indentR_ne_nil pre false buf h
  cases hq : indentR pre false buf with
  | nil => exact absurd hq hne
  | cons a b => simp [hq]

/-- One write through a heap node whose back-link is clear: the expansion is
appended to the shared destination and the node's sol advances. -/
theorem write_node (s : Sys) (i : Nat) (nd : INode) (hnd : s.heap[i]? = some nd)
    (hp : nd.p = none) (buf : List Nat) :
    write s (some i) buf
      = (((buf.length : Int), none),
          ⟨s.heap.set i ⟨nd.pre, nextSol nd.sol buf, none⟩,
            s.out ++ indent buf nd.pre nd.sol⟩) := by
  simp only [write, hnd, hp]
  rw [writeP_fullWrite]

/-- One write through a heap node with a pending back-link: the deepest
wrapper's sol is adopted, the link is cleared, and the write proceeds from
the adopted flag. -/
theorem write_node_p (s : Sys) (i k : Nat) (nd : INode) (hnd : s.heap[i]? = some nd)
    (hp : nd.p = some k) (sol2 : Bool)
    (hdeep : deepSol s.heap s.heap.length k = some sol2) (buf : List Nat) :
    write s (some i) buf
      = (((buf.length : Int), none),
          ⟨s.heap.set i ⟨nd.pre, nextSol sol2 buf, none⟩,
            s.out ++ indent buf nd.pre sol2⟩) := by
  simp only [write, hnd, hp, hdeep, Option.getD_some]
  rw [writeP_fullWrite]

/-! ### The claims -/

/-- Claim C1, counterexample: with prefix "--", input "a\nb" and a
destination capped at 3 bytes per call, the retry loop does consume all
input, yet the destination contents differ from those of an uninterrupted
write through an unconstrained destination (a cut inside an inserted prefix
leaves duplicated prefix bytes behind), refuting the round-trip claim as
stated. -/
theorem claim_C1_counterexample :
    (runLoop 3 9 ⟨[45, 45], true⟩ [] [97, 10, 98]).2.2.2 = []
      ∧ (writeP fullWrite ⟨[45, 45], true⟩ [] [97, 10, 98]).2.2.2
          = [45, 45, 97, 10, 45, 45, 98]
      ∧ (runLoop 3 9 ⟨[45, 45], true⟩ [] [97, 10, 98]).2.2.1
          ≠ [45, 45, 97, 10, 45, 45, 98] := by
  refine ⟨by decide, by decide, by decide⟩

/-- Claim C1, amended: the round-trip holds provided every call's accepted
span ends exactly at the boundary of the expansion of the input it consumed
(never inside or at the end of a pending inserted prefix); under that
condition, recorded by the loop's Bool flag, repeated writes of the
unconsumed remainder consume everything and reproduce the unconstrained
destination's contents byte-for-byte, for any newline-free prefix. -/
theorem claim_C1_amended (n fuel : Nat) (pre buf ds : List Nat) (hnf : 10 ∉ pre)
    (hgood : (runLoop n fuel ⟨pre, true⟩ ds buf).1 = true) :
    (runLoop n fuel ⟨pre, true⟩ ds buf).2.2.1
        = (writeP fullWrite ⟨pre, true⟩ ds buf).2.2.2
      ∧ (runLoop n fuel ⟨pre, true⟩ ds buf).2.2.2 = [] := by
  obtain ⟨i1, i2, i3⟩ := runLoop_spec n fuel ⟨pre, true⟩ ds buf hnf hgood
  rw [writeP_fullWrite]
  exact ⟨by rw [i1]; simp [indent_eq_indentR], i2⟩

/-- Claim C1, witness: a concrete capped run (cap 4, prefix "-", input
"ab\ncd") in which every cut is clean; the loop reproduces the unconstrained
output. -/
theorem claim_C1_witness :
    (10 ∉ ([45] : List Nat))
      ∧ (runLoop 4 5 ⟨[45], true⟩ [] [97, 98, 10, 99, 100]).1 = true
      ∧ (runLoop 4 5 ⟨[45], true⟩ [] [97, 98, 10, 99, 100]).2.2.1
          = (writeP fullWrite ⟨[45], true⟩ [] [97, 98, 10, 99, 100]).2.2.2 :=
  ⟨by decide, by decide,
    (claim_C1_amended 4 5 [45] [97, 98, 10, 99, 100] [] (by decide) (by decide)).1⟩

/-- Claim C2: writing any sequence of chunks through one writer over an
accept-everything destination produces the same destination contents as one
single write of the concatenation through a fresh writer with the same
prefix. -/
theorem claim_C2 (pre : List Nat) (cs : List (List Nat)) (ds : List Nat) :
    (writeAll ⟨pre, true⟩ ds cs).2 = (writeP fullWrite ⟨pre, true⟩ ds cs.flatten).2.2.2 := by
  rw [writeAll_spec, writeP_fullWrite]
  simp [indent_eq_indentR]

/-- Claim C3, counterexample: prefix "--", mid-line writer, input "a\nb",
destination accepts exactly 3 of the 5 expanded bytes ("a", newline and one
prefix byte).  The code reports 2 consumed and sets start-of-line to true,
although the last accepted byte is 45, not the terminator, and although
accepted_len minus len(prefix) times (0 + k) would be 3 - 2 = 1. -/
theorem claim_C3_counterexample :
    (writeP (capWrite 3) ⟨[45, 45], false⟩ [] [97, 10, 98])
        = (2, some (), ⟨[45, 45], true⟩, [97, 10, 45])
      ∧ ((capWrite 3) [] (indent [97, 10, 98] [45, 45] false)).2.2.getLast? = some 45
      ∧ ¬((45 : Nat) = 10)
      ∧ (writeP (capWrite 3) ⟨[45, 45], false⟩ [] [97, 10, 98]).1 ≠ 3 - 2 * (0 + 1) := by
  refine ⟨by decide, by decide, by decide, by decide⟩

/-- Claim C3, amended: on a partial acceptance of r expanded bytes (0 < r <
len(expanded)) with a newline-free prefix, the writer returns the number of
input-tagged bytes among the accepted expanded span (so a cut at or inside
an inserted prefix rounds down to the last input-byte boundary), the
destination's error verbatim, and start-of-line equal to whether the last
consumed input byte is the terminator (true when nothing was consumed, which
happens exactly when sol held and at most len(prefix) bytes were
accepted). -/
theorem claim_C3_amended {σ ε : Type} (dw : σ → List Nat → Nat × Option ε × σ)
    (st : WState) (ds : σ) (buf : List Nat) (r : Nat)
    (hnf : 10 ∉ st.pre) (hb : buf ≠ [])
    (hr : (dw ds (indent buf st.pre st.sol)).1 = r)
    (hr1 : 0 < r) (hr2 : r < (indent buf st.pre st.sol).length) :
    writeP dw st ds buf
      = ((((tagged st.pre st.sol buf).take r).count true : Int),
          (dw ds (indent buf st.pre st.sol)).2.1,
          ⟨st.pre, nextSol st.sol (buf.take (((tagged st.pre st.sol buf).take r).count true))⟩,
          (dw ds (indent buf st.pre st.sol)).2.2)
    ∧ (st.sol = true → r ≤ st.pre.length →
        ((tagged st.pre st.sol buf).take r).count true = 0)
    ∧ ((tagged st.pre st.sol buf).take r).count true ≤ buf.length := by
  obtain ⟨e1, _, e3⟩ := writeP_partial dw st ds buf r hnf hb hr hr1 hr2
  refine ⟨e1, ?_, e3⟩
  intro hsol hrle
  rw [hsol]
  exact tagged_count_short st.pre buf r hb hrle

/-- Claim C3, witness: prefix "-", mid-line writer, input "a\nb", cap 3; the
amended postcondition instantiated and the concrete consumed count. -/
theorem claim_C3_witness :
    (10 ∉ ([45] : List Nat))
      ∧ writeP (capWrite 3) ⟨[45], false⟩ [] [97, 10, 98]
          = ((((tagged [45] false [97, 10, 98]).take 3).count true : Int),
              ((capWrite 3) [] (indent [97, 10, 98] [45] false)).2.1,
              ⟨[45], nextSol false ([97, 10, 98].take
                (((tagged [45] false [97, 10, 98]).take 3).count true))⟩,
              ((capWrite 3) [] (indent [97, 10, 98] [45] false)).2.2) :=
  ⟨by decide,
    (claim_C3_amended (capWrite 3) ⟨[45], false⟩ [] [97, 10, 98] 3 (by decide) (by decide)
      (by decide) (by decide) (by decide)).1⟩

/-- Claim C4: the transform inserts the prefix immediately before every line
except the first line when sol is false, never inserts one after a final
terminator, and matches the three documented examples. -/
theorem claim_C4 :
    (∀ (pre : List Nat) (sol : Bool) (a b : List Nat), 10 ∉ a →
        indent (a ++ 10 :: b) pre sol
          = (if sol then pre else []) ++ a ++ 10 :: indent b pre true)
    ∧ (∀ (pre : List Nat) (sol : Bool) (a : List Nat), a ≠ [] → 10 ∉ a →
        indent a pre sol = (if sol then pre else []) ++ a)
    ∧ (∀ (pre buf : List Nat) (sol : Bool), buf.getLast? = some 10 →
        (indent buf pre sol).getLast? = some 10)
    ∧ indent [97, 98, 10, 99] [45, 45] true = [45, 45, 97, 98, 10, 45, 45, 99]
    ∧ indent [97, 98, 10, 99] [45, 45] false = [97, 98, 10, 45, 45, 99]
    ∧ indent [97, 98, 10, 99, 10] [45, 45] true = [45, 45, 97, 98, 10, 45, 45, 99, 10] := by
  refine ⟨?_, ?_, ?_, by decide, by decide, by decide⟩
  · intro pre sol a b h10
    rw [indent_eq_indentR, indent_eq_indentR, indentR_decomp pre sol a b h10]
  · intro pre sol a hne h10
    rw [indent_eq_indentR, indentR_nlfree_sol pre sol a h10 hne]
  · intro pre buf sol hlast
    have hb : buf ≠ [] := by
      intro e
      rw [e] at hlast
      simp at hlast
    rw [indent_getLast buf pre sol hb]
    exact hlast

/-- Claim C4, witness: the line-decomposition rule applied at a concrete
input. -/
theorem claim_C4_witness :
    (10 ∉ ([97] : List Nat))
      ∧ indent ([97] ++ 10 :: [99]) [45] false
          = (if false then [45] else []) ++ [97] ++ 10 :: indent [99] [45] true :=
  ⟨by decide, claim_C4.1 [45] false [97] [99] (by decide)⟩

/-- Claim C5: wrapping the writer at node 0 with a second prefix creates
node 1 writing to the same shared destination with the concatenated prefix
and node 0's sol copied at construction; a line written through node 1
behaves exactly like a single writer with the concatenated prefix, lines
written through node 0 before and after use its own prefix, and node 0's
next write adopts the deepest wrapper's sol through the back-link and clears
it. -/
theorem claim_C5 (o0 pre1 pre2 b0 b2 b1 : List Nat) (h1 : pre1 ≠ []) (h2 : pre2 ≠ []) :
    (New (⟨[], o0⟩ : Sys) none pre1).2 = some 0
    ∧ (New (write (New (⟨[], o0⟩ : Sys) none pre1).1 (some 0) b0).2 (some 0) pre2).2 = some 1
    ∧ (New (write (New (⟨[], o0⟩ : Sys) none pre1).1 (some 0) b0).2 (some 0) pre2).1.heap
        = [⟨pre1, nextSol true b0, some 1⟩, ⟨pre1 ++ pre2, nextSol true b0, none⟩]
    ∧ (write (write (New (write (New (⟨[], o0⟩ : Sys) none pre1).1 (some 0) b0).2
          (some 0) pre2).1 (some 1) b2).2 (some 0) b1).2
        = ⟨[⟨pre1, nextSol (nextSol (nextSol true b0) b2) b1, none⟩,
            ⟨pre1 ++ pre2, nextSol (nextSol true b0) b2, none⟩],
          o0 ++ indent b0 pre1 true ++ indent b2 (pre1 ++ pre2) (nextSol true b0)
            ++ indent b1 pre1 (nextSol (nextSol true b0) b2)⟩ := by
  have h1l : ¬(pre1.length = 0) := by simp [h1]
  have h2l : ¬(pre2.length = 0) := by simp [h2]
  have hs0 : New (⟨[], o0⟩ : Sys) none pre1 = (⟨[⟨pre1, true, none⟩], o0⟩, some 0) := by
    simp [New, h1l]
  have ht0 : write (⟨[⟨pre1, true, none⟩], o0⟩ : Sys) (some 0) b0
      = (((b0.length : Int), none),
          ⟨[⟨pre1, nextSol true b0, none⟩], o0 ++ indent b0 pre1 true⟩) := by
    rw [write_node ⟨[⟨pre1, true, none⟩], o0⟩ 0 ⟨pre1, true, none⟩ rfl rfl b0]
    simp
  have hn1 : New (⟨[⟨pre1, nextSol true b0, none⟩], o0 ++ indent b0 pre1 true⟩ : Sys)
        (some 0) pre2
      = (⟨[⟨pre1, nextSol true b0, some 1⟩, ⟨pre1 ++ pre2, nextSol true b0, none⟩],
          o0 ++ indent b0 pre1 true⟩, some 1) := by
    simp [New, h2l]
  have ht2 : write (⟨[⟨pre1, nextSol true b0, some 1⟩, ⟨pre1 ++ pre2, nextSol true b0, none⟩],
        o0 ++ indent b0 pre1 true⟩ : Sys) (some 1) b2
      = (((b2.length : Int), none),
          ⟨[⟨pre1, nextSol true b0, some 1⟩,
            ⟨pre1 ++ pre2, nextSol (nextSol true b0) b2, none⟩],
          (o0 ++ indent b0 pre1 true) ++ indent b2 (pre1 ++ pre2) (nextSol true b0)⟩) := by
    rw [write_node ⟨[⟨pre1, nextSol true b0, some 1⟩, ⟨pre1 ++ pre2, nextSol true b0, none⟩],
      o0 ++ indent b0 pre1 true⟩ 1 ⟨pre1 ++ pre2, nextSol true b0, none⟩ rfl rfl b2]
    simp
  have ht1 : write (⟨[⟨pre1, nextSol true b0, some 1⟩,
        ⟨pre1 ++ pre2, nextSol (nextSol true b0) b2, none⟩],
        (o0 ++ indent b0 pre1 true) ++ indent b2 (pre1 ++ pre2) (nextSol true b0)⟩ : Sys)
        (some 0) b1
      = (((b1.length : Int), none),
          ⟨[⟨pre1, nextSol (nextSol (nextSol true b0) b2) b1, none⟩,
            ⟨pre1 ++ pre2, nextSol (nextSol true b0) b2, none⟩],
          ((o0 ++ indent b0 pre1 true) ++ indent b2 (pre1 ++ pre2) (nextSol true b0))
            ++ indent b1 pre1 (nextSol (nextSol true b0) b2)⟩) := by
    rw [write_node_p ⟨[⟨pre1, nextSol true b0, some 1⟩,
        ⟨pre1 ++ pre2, nextSol (nextSol true b0) b2, none⟩],
        (o0 ++ indent b0 pre1 true) ++ indent b2 (pre1 ++ pre2) (nextSol true b0)⟩ 0 1
      ⟨pre1, nextSol true b0, some 1⟩ rfl rfl (nextSol (nextSol true b0) b2) rfl b1]
    simp
  simp only [hs0, ht0, hn1, ht2, ht1]
  exact ⟨trivial, trivial, trivial, trivial⟩

/-- Claim C5, witness: the nested test scenario with prefixes "--" and "++"
and lines "ab\n", "cd\n", "ef\n" (TestNested's first row). -/
theorem claim_C5_witness :
    (write (write (New (write (New (⟨[], []⟩ : Sys) none [45, 45]).1 (some 0) [97, 98, 10]).2
          (some 0) [43, 43]).1 (some 1) [99, 100, 10]).2 (some 0) [101, 102, 10]).2
      = ⟨[⟨[45, 45], nextSol (nextSol (nextSol true [97, 98, 10]) [99, 100, 10]) [101, 102, 10],
            none⟩,
          ⟨[45, 45] ++ [43, 43], nextSol (nextSol true [97, 98, 10]) [99, 100, 10], none⟩],
        [] ++ indent [97, 98, 10] [45, 45] true
          ++ indent [99, 100, 10] ([45, 45] ++ [43, 43]) (nextSol true [97, 98, 10])
          ++ indent [101, 102, 10] [45, 45]
              (nextSol (nextSol true [97, 98, 10]) [99, 100, 10])⟩ :=
  (claim_C5 [] [45, 45] [43, 43] [97, 98, 10] [99, 100, 10] [101, 102, 10]
    (by decide) (by decide)).2.2.2

/-- Claim C6: the destination's error is returned unmodified on every path
that consults it; full acceptance reports the whole input consumed and sets
sol from the last expanded byte even alongside an error; zero acceptance
reports nothing consumed and leaves the writer state untouched. -/
theorem claim_C6 {σ ε : Type} (dw : σ → List Nat → Nat × Option ε × σ)
    (st : WState) (ds : σ) (buf : List Nat) (hb : buf ≠ []) :
    (writeP dw st ds buf).2.1 = (dw ds (indent buf st.pre st.sol)).2.1
    ∧ ((dw ds (indent buf st.pre st.sol)).1 = (indent buf st.pre st.sol).length →
        writeP dw st ds buf
          = ((buf.length : Int), (dw ds (indent buf st.pre st.sol)).2.1,
              ⟨st.pre, lastIsNl (indent buf st.pre st.sol)⟩,
              (dw ds (indent buf st.pre st.sol)).2.2))
    ∧ ((dw ds (indent buf st.pre st.sol)).1 = 0 →
        writeP dw st ds buf
          = (0, (dw ds (indent buf st.pre st.sol)).2.1, st,
              (dw ds (indent buf st.pre st.sol)).2.2)) := by
  refine ⟨(writeP_err_ds dw st ds buf hb).1, ?_, ?_⟩
  · intro hfull
    rw [lastIsNl_eq_nextSol buf st.pre st.sol hb]
    exact writeP_full dw st ds buf hb hfull
  · intro hzero
    exact writeP_zero dw st ds buf hb hzero

/-- Claim C6, witness: the error-propagation component at a concrete
erroring destination and input. -/
theorem claim_C6_witness :
    (writeP (capWrite 0) ⟨[45], true⟩ [] [97]).2.1
      = ((capWrite 0) [] (indent [97] [45] true)).2.1 :=
  (claim_C6 (capWrite 0) ⟨[45], true⟩ [] [97] (by decide)).1

/-- Claim C7: Unwrap at depth 0 is the writer itself, each extra level peels
one wrapper, and any depth at or past the chain's nesting depth yields the
innermost non-wrapper destination. -/
theorem claim_C7 :
    (∀ c : Chain, Unwrap c 0 = c)
    ∧ (∀ (i : Nat) (c : Chain) (k : Nat), Unwrap (Chain.wrap i c) (k + 1) = Unwrap c k)
    ∧ (∀ (c : Chain) (k : Nat), depthC c ≤ k → Unwrap c k = rootOf c) := by
  refine ⟨?_, ?_, ?_⟩
  · intro c
    cases c <;> rfl
  · intro i c k
    rfl
  · intro c
    induction c with
    | base m =>
      intro k hk
      cases k <;> rfl
    | wrap i c ih =>
      intro k hk
      cases k with
      | zero => simp [depthC] at hk
      | succ k2 =>
        have h2 : depthC c ≤ k2 := by
          simp [depthC] at hk
          omega
        calc Unwrap (Chain.wrap i c) (k2 + 1) = Unwrap c k2 := rfl
          _ = rootOf c := ih k2 h2
          _ = rootOf (Chain.wrap i c) := rfl

/-- Claim C7, witness: a two-level chain unwrapped past its depth reaches
the root destination. -/
theorem claim_C7_witness :
    depthC (Chain.wrap 2 (Chain.wrap 1 (Chain.base 0))) ≤ 5
      ∧ Unwrap (Chain.wrap 2 (Chain.wrap 1 (Chain.base 0))) 5
          = rootOf (Chain.wrap 2 (Chain.wrap 1 (Chain.base 0))) :=
  ⟨by decide, claim_C7.2.2 (Chain.wrap 2 (Chain.wrap 1 (Chain.base 0))) 5 (by decide)⟩

/-- Claim C8: the transform and the one-shot String and Bytes operations are
the identity whenever the buffer or the prefix is empty. -/
theorem claim_C8 :
    (∀ (pre : List Nat) (sol : Bool), indent [] pre sol = [])
    ∧ (∀ (buf : List Nat) (sol : Bool), indent buf [] sol = buf)
    ∧ (∀ pre : List Nat, String pre [] = [])
    ∧ (∀ input : List Nat, String [] input = input)
    ∧ (∀ pre : List Nat, Bytes pre [] = [])
    ∧ (∀ input : List Nat, Bytes [] input = input) := by
  refine ⟨?_, ?_, ?_, ?_, ?_, ?_⟩ <;> intros <;> simp [indent, String, Bytes]

/-- Claim C9: constructing with an empty prefix returns the destination
handle itself and leaves the system unchanged - no wrapper node is
created. -/
theorem claim_C9 : ∀ (s : Sys) (h : Option Nat), New s h [] = (s, h) := by
  intro s h
  simp [New]

/-- Claim C10: at start of line, when the destination accepts r1 bytes with
0 < r1 <= len(prefix), the write reports 0 consumed and leaves sol true; a
retry of the same input regenerates the full prefix, so after the retry the
destination has received the first r1 prefix bytes twice in a row. -/
theorem claim_C10 (pre buf ds0 : List Nat) (r1 r2 : Nat)
    (hb : buf ≠ []) (h0 : 0 < r1) (hle : r1 ≤ pre.length) (h12 : r1 ≤ r2) :
    writeP scriptWrite ⟨pre, true⟩ ([r1, r2], ds0) buf
      = (0, some (), ⟨pre, true⟩, ([r2], ds0 ++ pre.take r1))
    ∧ ∃ rest,
        (writeP scriptWrite ⟨pre, true⟩ ([r2], ds0 ++ pre.take r1) buf).2.2.2.2
          = ds0 ++ (pre.take r1 ++ (pre.take r1 ++ rest)) := by
  have hlt : pre.length < (indent buf pre true).length := indent_true_length buf pre hb
  have hsplit : indent buf pre true = pre ++ indentR pre false buf :=
    indent_true_split buf pre hb
  have hr : (scriptWrite ([r1, r2], ds0) (indent buf pre true)).1 = r1 := by
    simp only [scriptWrite]
    omega
  have htk1 : (indent buf pre true).take r1 = pre.take r1 := by
    rw [hsplit, List.take_append_eq_append_take, Nat.sub_eq_zero_of_le hle]
    simp
  have hlen : ¬(buf.length = 0) := by simp [hb]
  constructor
  · simp only [writeP, if_neg hlen]
    split_ifs with hc1 hc2 hc3
    · rw [hr] at hc1
      exact absurd hc1 (by omega)
    · rw [hr] at hc2
      omega
    · simp only [scriptWrite]
      rw [if_neg (by omega), htk1]
    · exact absurd ⟨by trivial, (le_of_eq hr).trans hle⟩ hc3
  · refine ⟨(pre.take r2).drop r1 ++ (indentR pre false buf).take (r2 - pre.length), ?_⟩
    have hds := (writeP_err_ds scriptWrite ⟨pre, true⟩ ([r2], ds0 ++ pre.take r1) buf hb).2
    rw [hds]
    simp only [scriptWrite]
    have hsplit2 : pre.take r2 = pre.take r1 ++ (pre.take r2).drop r1 := by
      conv_lhs => rw [← List.take_append_drop r1 (pre.take r2)]
      rw [List.take_take, Nat.min_eq_left h12]
    conv_lhs => rw [hsplit, List.take_append_eq_append_take, hsplit2]
    simp [List.append_assoc]

/-- Claim C10, witness: prefix "--", input "a", the destination accepts one
byte on the first call and everything offered on the retry; the first prefix
byte reaches the destination twice. -/
theorem claim_C10_witness :
    writeP scriptWrite ⟨[45, 45], true⟩ ([1, 7], []) [97]
        = (0, some (), ⟨[45, 45], true⟩, ([7], [] ++ [45, 45].take 1))
      ∧ ∃ rest,
          (writeP scriptWrite ⟨[45, 45], true⟩ ([7], [] ++ [45, 45].take 1) [97]).2.2.2.2
            = [] ++ ([45, 45].take 1 ++ ([45, 45].take 1 ++ rest)) :=
  claim_C10 [45, 45] [97] [] 1 7 (by decide) (by decide) (by decide) (by decide)

end Indent
